import Mathlib

/-!
# Verification of the `node_acl` permission-resolution engine

Shallow embedding of `src/lib/acl.js` (the ACL decision / mutation engine) and of
the MongoDB backend's reserved-key check (`src/unnamed/part_002`).

The engine runs against an abstract bucket-keyed set store (the "Storage
Contract" of the spec, §4.1); the concrete in-memory backend is not part of the
sources, so the store operations below are modelled from the spec's contract.
All recursive queries of the engine (`_checkPermissions`, `_allRoles`,
`_resourcePermissions`) recurse through the `parents` bucket and do not
terminate on cyclic hierarchies; they are embedded with an explicit fuel
parameter, `none` standing for non-termination.
-/

namespace NodeAcl

/-- A bucket-keyed store: an association list from `(bucket, key)` to the set
of strings stored there (sets are represented as lists, all properties are
stated up to membership).

Modelled from the spec: §4.1 Storage Contract — the concrete backends are not
in the sources; this is the reference store every backend must refine. -/
abbrev Store := List ((String × String) × List String)

/-- Modelled from the spec: `get(bucket, key)` returns the set stored at
`(bucket, key)`, or the empty set if absent; never null. -/
def storeGet : Store → String → String → List String
  | [], _, _ => []
  | (e :: rest), bucket, key =>
    if e.1 = (bucket, key) then e.2 else storeGet rest bucket key

/-- Overwrite the value at `(bucket, key)` (internal helper realising the
buffered writes of the contract). -/
def storeSet : Store → String → String → List String → Store
  | [], bucket, key, v => [((bucket, key), v)]
  | (e :: rest), bucket, key, v =>
    if e.1 = (bucket, key) then ((bucket, key), v) :: rest
    else e :: storeSet rest bucket key v

/-- Modelled from the spec: `add(batch, bucket, key, values)` buffers a
set-union write; after commit `get(bucket, key) ⊇ values`. -/
def storeAdd (s : Store) (bucket key : String) (values : List String) : Store :=
  storeSet s bucket key ((storeGet s bucket key).union values)

/-- Modelled from the spec: `remove(batch, bucket, key, values)` buffers a
set-difference write; after commit none of `values` remain at the key. -/
def storeRemove (s : Store) (bucket key : String) (values : List String) : Store :=
  storeSet s bucket key ((storeGet s bucket key).filter (fun v => ¬ v ∈ values))

/-- Modelled from the spec: `del(batch, bucket, keys)` buffers full deletion of
a key (single-key form, as used by the engine). -/
def storeDel (s : Store) (bucket key : String) : Store :=
  s.filter (fun e => ¬ e.1 = (bucket, key))

/-- Modelled from the spec: `union(bucket, keys)` behaves as `get` unioned over
all the keys, with duplicates removed. -/
def unionGet (s : Store) (bucket : String) (keys : List String) : List String :=
  keys.foldr (fun k acc => (storeGet s bucket k).union acc) []

/-- Modelled from the spec: the optional `unions(buckets, keys)` capability —
for each bucket, the union over the given keys, behaving as `get` unioned over
all keys. -/
def unionsGet (s : Store) (buckets keys : List String) : List (String × List String) :=
  buckets.map (fun b => (b, unionGet s b keys))

/-! ## The engine — `src/lib/acl.js`

Bucket names are the defaults of the `Acl` constructor:
`meta`, `parents`, `permissions`, `resources`, `roles`, `users`.
Each mutation is one `begin`/`end` batch; its committed effect is the queued
store operations applied in queue order (spec §5: "within one batch, queued
operations commit in the order queued"). -/

/-- `allowsBucket(role)` — `"allows_" + role` (acl.js, helper). -/
def allowsBucket (resource : String) : String := "allows_" ++ resource

/-- `keyFromAllowsBucket(str)` — `str.replace(/^allows_/, "")` (acl.js, helper):
strips one leading `allows_` if present, otherwise returns the string
unchanged. -/
def keyFromAllowsBucket (str : String) : String :=
  match str.data with
  | 'a' :: 'l' :: 'l' :: 'o' :: 'w' :: 's' :: '_' :: rest => ⟨rest⟩
  | _ => str

/-- `Acl.prototype.addUserRoles(userId, roles)`: one batch —
`add(meta, "users", userId)`, `add(users, userId, roles)`, and
`add(roles, role, userId)` for each role. -/
def addUserRoles (s : Store) (userId : String) (roles : List String) : Store :=
  let s := storeAdd s "meta" "users" [userId]
  let s := storeAdd s "users" userId roles
  roles.foldl (fun s role => storeAdd s "roles" role [userId]) s

/-- `Acl.prototype.removeUserRoles(userId, roles)`: one batch —
`remove(users, userId, roles)` and `remove(roles, role, userId)` for each
role. -/
def removeUserRoles (s : Store) (userId : String) (roles : List String) : Store :=
  let s := storeRemove s "users" userId roles
  roles.foldl (fun s role => storeRemove s "roles" role [userId]) s

/-- `Acl.prototype.userRoles(userId)` — `get(users, userId)`. -/
def userRoles (s : Store) (userId : String) : List String :=
  storeGet s "users" userId

/-- `Acl.prototype.addRoleParents(role, parents)`: one batch —
`add(meta, "roles", role)` and `add(parents, role, parents)`. -/
def addRoleParents (s : Store) (role : String) (parents : List String) : Store :=
  storeAdd (storeAdd s "meta" "roles" [role]) "parents" role parents

/-- `Acl.prototype.removeRoleParents(role, parents)` with an explicit parent
list — `remove(parents, role, parents)`. -/
def removeRoleParents (s : Store) (role : String) (parents : List String) : Store :=
  storeRemove s "parents" role parents

/-- `Acl.prototype.removeRoleParents(role)` with no parent list —
`del(parents, role)`, deleting the whole parent-set key. -/
def removeRoleParentsAll (s : Store) (role : String) : Store :=
  storeDel s "parents" role

/-- `Acl.prototype.removeRole(role)`: reads `get(resources, role)`, then one
batch — `del(allows_<resource>, role)` for each such resource,
`del(resources, role)`, `del(parents, role)`, `del(roles, role)`,
`remove(meta, "roles", role)`. -/
def removeRole (s : Store) (role : String) : Store :=
  let resources := storeGet s "resources" role
  let s := resources.foldl (fun s resource => storeDel s (allowsBucket resource) role) s
  let s := storeDel s "resources" role
  let s := storeDel s "parents" role
  let s := storeDel s "roles" role
  storeRemove s "meta" "roles" [role]

/-- `Acl.prototype.allow(roles, resources, permissions)` (flat form): one
batch — `add(meta, "roles", roles)`, `add(allows_<resource>, role,
permissions)` for each resource × role, and `add(resources, role, resources)`
for each role. -/
def allow (s : Store) (roles resources permissions : List String) : Store :=
  let s := storeAdd s "meta" "roles" roles
  let s := resources.foldl
    (fun s resource => roles.foldl
      (fun s role => storeAdd s (allowsBucket resource) role permissions) s) s
  roles.foldl (fun s role => storeAdd s "resources" role resources) s

/-- `Acl.prototype.removePermissions(role, resources, permissions)`
(`removeAllow` after argument normalisation). First batch: per resource,
either `remove(allows_<resource>, role, permissions)` (explicit permissions)
or `del(allows_<resource>, role)` plus `remove(resources, role, resource)`
(no permissions). Second batch (not atomic with the first): for every
resource whose committed `get(allows_<resource>, role)` is now empty,
`remove(resources, role, resource)`. -/
def removePermissions (s : Store) (role : String) (resources : List String)
    (permissions : Option (List String)) : Store :=
  let s1 := resources.foldl
    (fun s resource =>
      match permissions with
      | some perms => storeRemove s (allowsBucket resource) role perms
      | none =>
        let s := storeDel s (allowsBucket resource) role
        storeRemove s "resources" role [resource]) s
  let toDrop := resources.filter (fun resource => storeGet s1 (allowsBucket resource) role = [])
  toDrop.foldl (fun s resource => storeRemove s "resources" role [resource]) s1

/-- `Acl.prototype.removeAllow(role, resources, permissions)` — normalises and
delegates to `removePermissions`. -/
def removeAllow (s : Store) (role : String) (resources : List String)
    (permissions : Option (List String)) : Store :=
  removePermissions s role resources permissions

/-- `Acl.prototype._rolesParents(roles)` — `union(parents, roles)`. -/
def rolesParents (s : Store) (roles : List String) : List String :=
  unionGet s "parents" roles

/-- `Acl.prototype._allRoles(roleNames)` (fuelled): fetch the one-level
parents; if non-empty, recurse on them and return `union(roleNames, parentRoles)`;
otherwise return `roleNames`. `none` = fuel exhausted (the JS recursion does
not terminate on cyclic hierarchies). -/
def allRoles : Nat → Store → List String → Option (List String)
  | 0, _, _ => none
  | fuel + 1, s, roleNames =>
    let parents := rolesParents s roleNames
    if parents.length > 0 then
      (allRoles fuel s parents).map (fun parentRoles => roleNames.union parentRoles)
    else
      some roleNames

/-- `Acl.prototype._allUserRoles(userId)` (fuelled): the user's direct roles,
expanded by `_allRoles` when non-empty, `[]` otherwise. -/
def allUserRoles (fuel : Nat) (s : Store) (userId : String) : Option (List String) :=
  let roles := userRoles s userId
  if roles.length > 0 then allRoles fuel s roles else some []

/-- `Acl.prototype._resourcePermissions(roles, resource)` (fuelled): `[]` for
an empty role set; otherwise `union(allows_<resource>, roles)`, unioned with
the recursive permissions of the one-level parents when those are
non-empty. -/
def resourcePermissions : Nat → Store → List String → String → Option (List String)
  | 0, _, _, _ => none
  | fuel + 1, s, roles, resource =>
    if roles.length = 0 then
      some []
    else
      let perms := unionGet s (allowsBucket resource) roles
      let parents := rolesParents s roles
      if parents.length > 0 then
        (resourcePermissions fuel s parents resource).map
          (fun morePermissions => perms.union morePermissions)
      else
        some perms

/-- `Acl.prototype._checkPermissions(roles, resource, permissions)` (fuelled):
union the grants of `roles` on the resource; wildcard `*` short-circuits to
true; drop satisfied permissions, empty remainder means true; otherwise
recurse on the one-level parents when non-empty, else false. -/
def checkPermissions : Nat → Store → List String → String → List String → Option Bool
  | 0, _, _, _, _ => none
  | fuel + 1, s, roles, resource, permissions =>
    let resourcePerms := unionGet s (allowsBucket resource) roles
    if resourcePerms.contains "*" then
      some true
    else
      let permissions := permissions.filter (fun p => ¬ resourcePerms.contains p)
      if permissions.length = 0 then
        some true
      else
        let parents := unionGet s "parents" roles
        if parents.length > 0 then
          checkPermissions fuel s parents resource permissions
        else
          some false

/-- `Acl.prototype.areAnyRolesAllowed(roles, resource, permissions)`: false
for an empty role set, else `_checkPermissions`. -/
def areAnyRolesAllowed (fuel : Nat) (s : Store) (roles : List String)
    (resource : String) (permissions : List String) : Option Bool :=
  if roles.length = 0 then some false
  else checkPermissions fuel s roles resource permissions

/-- `Acl.prototype.isAllowed(userId, resource, permissions)`: the user's
direct roles; `areAnyRolesAllowed` on them when non-empty, false otherwise. -/
def isAllowed (fuel : Nat) (s : Store) (userId resource : String)
    (permissions : List String) : Option Bool :=
  let roles := storeGet s "users" userId
  if roles.length > 0 then areAnyRolesAllowed fuel s roles resource permissions
  else some false

/-- `Acl.prototype.allowedPermissions(userId, resources)`, naive path (backend
without `unions`): `{}` for a falsy user id; otherwise the user's direct roles
and, per requested resource, `_resourcePermissions` of those roles. -/
def allowedPermissions (fuel : Nat) (s : Store) (userId : String)
    (resources : List String) : Option (List (String × List String)) :=
  if userId = "" then some []
  else
    let roles := userRoles s userId
    resources.mapM (fun resource =>
      (resourcePermissions fuel s roles resource).map (fun perms => (resource, perms)))

/-- `Acl.prototype.optimizedAllowedPermissions(userId, resources)`: `{}` for a
falsy user id; otherwise the full role closure `_allUserRoles`, the buckets
`allows_<resource>`, one batched `unions` call (or all-empty buckets when the
closure is empty), then bucket names remapped by `keyFromAllowsBucket`. -/
def optimizedAllowedPermissions (fuel : Nat) (s : Store) (userId : String)
    (resources : List String) : Option (List (String × List String)) :=
  if userId = "" then some []
  else
    (allUserRoles fuel s userId).map (fun roles =>
      let buckets := resources.map allowsBucket
      let response :=
        if roles.length = 0 then buckets.map (fun b => (b, ([] : List String)))
        else unionsGet s buckets roles
      response.map (fun p => (keyFromAllowsBucket p.1, p.2)))

/-! ## Basic store lemmas -/

theorem mem_listUnion {x : String} {l m : List String} :
    x ∈ l.union m ↔ x ∈ l ∨ x ∈ m := List.mem_union_iff

theorem storeGet_nil (b k : String) : storeGet [] b k = [] := rfl

theorem storeGet_cons (e : (String × String) × List String) (rest : Store) (b k : String) :
    storeGet (e :: rest) b k = if e.1 = (b, k) then e.2 else storeGet rest b k := rfl

theorem storeGet_entry_mem {s : Store} {b k x : String}
    (h : x ∈ storeGet s b k) : ∃ v, ((b, k), v) ∈ s ∧ x ∈ v := by
  induction s with
  | nil => simp [storeGet_nil] at h
  | cons e rest ih =>
    rw [storeGet_cons] at h
    split at h
    · next he => exact ⟨e.2, by simp [← he], h⟩
    · obtain ⟨v, hv, hx⟩ := ih h
      exact ⟨v, List.mem_cons_of_mem _ hv, hx⟩

theorem storeGet_storeSet_self (s : Store) (b k : String) (v : List String) :
    storeGet (storeSet s b k v) b k = v := by
  induction s with
  | nil => rw [storeSet, storeGet_cons, if_pos rfl]
  | cons e rest ih =>
    rw [storeSet]
    split
    · rw [storeGet_cons, if_pos rfl]
    · next he => rw [storeGet_cons, if_neg he]; exact ih

theorem storeGet_storeSet_ne (s : Store) {b k b' k' : String} (v : List String)
    (h : ¬ (b', k') = (b, k)) :
    storeGet (storeSet s b k v) b' k' = storeGet s b' k' := by
  have h' : ¬ ((b, k) : String × String) = (b', k') := fun hq => h hq.symm
  induction s with
  | nil => rw [storeSet, storeGet_cons, if_neg h']
  | cons e rest ih =>
    rw [storeSet]
    split
    · next he => rw [storeGet_cons, storeGet_cons, he, if_neg h', if_neg h']
    · rw [storeGet_cons, storeGet_cons]
      split
      · rfl
      · exact ih

theorem storeGet_storeAdd_self (s : Store) (b k : String) (vs : List String) :
    storeGet (storeAdd s b k vs) b k = (storeGet s b k).union vs :=
  storeGet_storeSet_self ..

theorem mem_storeGet_storeAdd_self {s : Store} {b k : String} {vs : List String} (x : String) :
    x ∈ storeGet (storeAdd s b k vs) b k ↔ x ∈ storeGet s b k ∨ x ∈ vs := by
  rw [storeGet_storeAdd_self]; exact List.mem_union_iff

theorem storeGet_storeAdd_ne (s : Store) {b k b' k' : String} (vs : List String)
    (h : ¬ (b', k') = (b, k)) :
    storeGet (storeAdd s b k vs) b' k' = storeGet s b' k' :=
  storeGet_storeSet_ne _ _ h

theorem storeGet_storeRemove_self (s : Store) (b k : String) (vs : List String) :
    storeGet (storeRemove s b k vs) b k
      = (storeGet s b k).filter (fun v => ¬ v ∈ vs) :=
  storeGet_storeSet_self ..

theorem mem_storeGet_storeRemove_self {s : Store} {b k : String} {vs : List String} (x : String) :
    x ∈ storeGet (storeRemove s b k vs) b k ↔ x ∈ storeGet s b k ∧ ¬ x ∈ vs := by
  rw [storeGet_storeRemove_self]; simp

theorem storeGet_storeRemove_ne (s : Store) {b k b' k' : String} (vs : List String)
    (h : ¬ (b', k') = (b, k)) :
    storeGet (storeRemove s b k vs) b' k' = storeGet s b' k' :=
  storeGet_storeSet_ne _ _ h

theorem storeGet_storeDel_self (s : Store) (b k : String) :
    storeGet (storeDel s b k) b k = [] := by
  induction s with
  | nil => rfl
  | cons e rest ih =>
    rw [storeDel, List.filter]
    split
    · next hcond =>
      rw [storeGet]
      have : ¬ e.1 = (b, k) := by simpa using hcond
      rw [if_neg this]
      exact ih
    · exact ih

theorem storeGet_storeDel_ne (s : Store) {b k b' k' : String}
    (h : ¬ (b', k') = (b, k)) :
    storeGet (storeDel s b k) b' k' = storeGet s b' k' := by
  induction s with
  | nil => rfl
  | cons e rest ih =>
    rw [storeDel, List.filter]
    split
    · next hcond =>
      rw [storeGet, storeGet]
      split
      · rfl
      · exact ih
    · next hcond =>
      have he : e.1 = (b, k) := by simpa using hcond
      rw [storeGet, he, if_neg (fun h' => h h'.symm)]
      exact ih

theorem mem_unionGet {s : Store} {b : String} {keys : List String} (x : String) :
    x ∈ unionGet s b keys ↔ ∃ k ∈ keys, x ∈ storeGet s b k := by
  induction keys with
  | nil => simp [unionGet]
  | cons k rest ih =>
    rw [unionGet, List.foldr] at *
    rw [mem_listUnion, ih]
    simp

theorem unionGet_nil (s : Store) (b : String) : unionGet s b [] = [] := rfl

/-! ## Spec-side decision algorithm (for claim C1)

A second definition written from the spec's words (§4.4), to be compared with
the source embedding `areAnyRolesAllowed` / `checkPermissions`. -/

/-- Modelled from the spec: "fetch the union of granted permissions for
`roles` directly on `resource`; if that union contains the wildcard token,
return true immediately. Remove from the requested-permission list every
permission already satisfied; if none remain, return true. Otherwise fetch
the parent roles of `roles` (one level) and, if non-empty, recurse with the
parent set and the still-unsatisfied permission list; if parents are empty,
return false." -/
def specSatisfied : Nat → Store → List String → String → List String → Option Bool
  | 0, _, _, _, _ => none
  | fuel + 1, s, roles, resource, requested =>
    let granted := unionGet s (allowsBucket resource) roles
    if "*" ∈ granted then some true
    else
      let unsatisfied := requested.filter (fun p => ¬ p ∈ granted)
      if unsatisfied = [] then some true
      else
        let parentSet := rolesParents s roles
        if parentSet = [] then some false
        else specSatisfied fuel s parentSet resource unsatisfied

/-- Modelled from the spec: "`areAnyRolesAllowed(roles, resource, permissions)
-> bool`: empty role set ⇒ false", otherwise the recursive satisfaction
check. -/
def specAreAnyRolesAllowed (fuel : Nat) (s : Store) (roles : List String)
    (resource : String) (permissions : List String) : Option Bool :=
  if roles = [] then some false
  else specSatisfied fuel s roles resource permissions

theorem checkPermissions_eq_specSatisfied (fuel : Nat) (s : Store)
    (roles : List String) (resource : String) (requested : List String) :
    checkPermissions fuel s roles resource requested
      = specSatisfied fuel s roles resource requested := by
  induction fuel generalizing roles requested with
  | zero => rfl
  | succ f ih =>
    rw [checkPermissions, specSatisfied]
    simp only [rolesParents]
    refine if_congr List.elem_iff rfl ?_
    have hfilter :
        requested.filter (fun p => ¬ (unionGet s (allowsBucket resource) roles).contains p)
          = requested.filter (fun p => ¬ p ∈ unionGet s (allowsBucket resource) roles) :=
      List.filter_congr (fun p _ => by simp)
    rw [hfilter]
    refine if_congr List.length_eq_zero rfl ?_
    by_cases hp : unionGet s "parents" roles = []
    · rw [if_pos hp, if_neg (by simp [hp])]
    · rw [if_neg hp, if_pos (List.length_pos.mpr hp)]
      exact ih _ _

/-- **C1.** `areAnyRolesAllowed` behaves exactly as the specified algorithm:
an empty role set yields false; otherwise union the permissions granted to
the roles directly on the resource, short-circuit to true on the wildcard
`*`, drop the already-satisfied permissions, succeed when none remain, and
otherwise recurse on the one-level parent roles, failing when the parent set
is empty. -/
theorem areAnyRolesAllowed_eq_spec (fuel : Nat) (s : Store) (roles : List String)
    (resource : String) (permissions : List String) :
    areAnyRolesAllowed fuel s roles resource permissions
      = specAreAnyRolesAllowed fuel s roles resource permissions := by
  rw [areAnyRolesAllowed, specAreAnyRolesAllowed]
  exact if_congr List.length_eq_zero rfl
    (checkPermissions_eq_specSatisfied fuel s roles resource permissions)

/-- **C10.** With a non-empty role set and an empty requested-permission
list, `areAnyRolesAllowed` is true unconditionally (for any store, in
particular one with no grants at all): the unsatisfied list is empty before
any grant or parent lookup can fail. -/
theorem areAnyRolesAllowed_nil_permissions (fuel : Nat) (s : Store)
    (roles : List String) (resource : String) (h : roles ≠ []) :
    areAnyRolesAllowed (fuel + 1) s roles resource [] = some true := by
  rw [areAnyRolesAllowed, if_neg (by simpa [List.length_eq_zero] using h),
    checkPermissions]
  by_cases hstar : "*" ∈ unionGet s (allowsBucket resource) roles
  · simp [hstar]
  · simp [hstar]

/-- Witness for C10: two roles with no grants anywhere (empty store) are
allowed the empty permission list on any resource. -/
theorem areAnyRolesAllowed_nil_permissions_witness :
    areAnyRolesAllowed 1 [] ["guest"] "blogs" [] = some true :=
  areAnyRolesAllowed_nil_permissions 0 [] ["guest"] "blogs" (by decide)

/-- **C3.** `isAllowed` returns false immediately when the user's direct role
set is empty, and otherwise returns exactly `areAnyRolesAllowed` on those
direct roles; absence of roles is an ordinary `false` answer, never an
error. -/
theorem isAllowed_roles_cases (fuel : Nat) (s : Store) (userId resource : String)
    (permissions : List String) :
    (storeGet s "users" userId = [] →
      isAllowed fuel s userId resource permissions = some false) ∧
    (storeGet s "users" userId ≠ [] →
      isAllowed fuel s userId resource permissions
        = areAnyRolesAllowed fuel s (storeGet s "users" userId) resource permissions) := by
  constructor
  · intro h
    rw [isAllowed]
    simp [h]
  · intro h
    rw [isAllowed]
    simp only [if_pos (List.length_pos.mpr h)]

/-- Witness for C3: a user with no roles is denied; a user with role `guest`
gets the verdict of `areAnyRolesAllowed` on `[guest]`. -/
theorem isAllowed_roles_cases_witness :
    isAllowed 1 [] "joed" "blogs" ["view"] = some false ∧
    isAllowed 1 (addUserRoles [] "joed" ["guest"]) "joed" "blogs" ["view"]
      = areAnyRolesAllowed 1 (addUserRoles [] "joed" ["guest"]) ["guest"] "blogs" ["view"] := by
  constructor
  · exact (isAllowed_roles_cases 1 [] "joed" "blogs" ["view"]).1 (by decide)
  · have h := (isAllowed_roles_cases 1 (addUserRoles [] "joed" ["guest"]) "joed" "blogs"
      ["view"]).2 (by decide)
    rw [h]
    have : storeGet (addUserRoles [] "joed" ["guest"]) "users" "joed" = ["guest"] := by decide
    rw [this]

/-! ## Parent-hierarchy walks, acyclicity, and the role closure -/

/-- A walk along parent edges: `WalkTo s a l c` means starting at role `a`
and repeatedly stepping to a member of the current role's `parents` set, the
successive roles visited are `l` and the final role reached is `c` (`c = a`
when `l = []`). -/
inductive WalkTo (s : Store) : String → List String → String → Prop
  | nil (a : String) : WalkTo s a [] a
  | cons {a b c : String} {l : List String} :
      b ∈ storeGet s "parents" a → WalkTo s b l c → WalkTo s a (b :: l) c

/-- The parents relation has no cycle: no non-trivial walk returns to its
start. -/
def Acyclic (s : Store) : Prop := ∀ x l, WalkTo s x l x → l = []

/-- The level sets of the recursions: `levelN s roles n` is the n-fold image
of `roles` under the one-level parent-union query. -/
def levelN (s : Store) (roles : List String) : Nat → List String
  | 0 => roles
  | n + 1 => rolesParents s (levelN s roles n)

/-- Every string appearing as a parent anywhere in the store (the store is
finite, so this list bounds every walk). -/
def parentVals (s : Store) : List String :=
  s.foldr (fun e acc => if e.1.1 = "parents" then e.2 ++ acc else acc) []

theorem parentVals_cons (e : (String × String) × List String) (rest : Store) :
    parentVals (e :: rest)
      = if e.1.1 = "parents" then e.2 ++ parentVals rest else parentVals rest := rfl

theorem mem_parentVals {s : Store} {k x : String}
    (h : x ∈ storeGet s "parents" k) : x ∈ parentVals s := by
  obtain ⟨v, hv, hx⟩ := storeGet_entry_mem h
  clear h
  induction s with
  | nil => simp at hv
  | cons e rest ih =>
    rw [parentVals_cons]
    rcases List.mem_cons.mp hv with he | hrest
    · rw [← he]
      simp [hx]
    · split
      · exact List.mem_append_right _ (ih hrest)
      · exact ih hrest

theorem levelN_shift (s : Store) (roles : List String) (n : Nat) :
    levelN s roles (n + 1) = levelN s (rolesParents s roles) n := by
  induction n with
  | zero => rfl
  | succ m ih => rw [levelN, ih]; rfl

theorem walkTo_append {s : Store} {a b c : String} {l : List String}
    (h : WalkTo s a l b) (hedge : c ∈ storeGet s "parents" b) :
    WalkTo s a (l ++ [c]) c := by
  induction h with
  | nil a => exact WalkTo.cons hedge (WalkTo.nil c)
  | cons hstep _ ih => exact WalkTo.cons hstep (ih hedge)

theorem walkTo_subset_parentVals {s : Store} {a c : String} {l : List String}
    (h : WalkTo s a l c) : ∀ x ∈ l, x ∈ parentVals s := by
  induction h with
  | nil a => simp
  | cons hstep _ ih =>
    intro x hx
    rcases List.mem_cons.mp hx with hx | hx
    · subst hx
      exact mem_parentVals hstep
    · exact ih x hx

theorem walkTo_split {s : Store} {a c : String} {l₁ l₂ : List String}
    (h : WalkTo s a (l₁ ++ l₂) c) :
    ∃ m, WalkTo s a l₁ m ∧ WalkTo s m l₂ c := by
  induction l₁ generalizing a with
  | nil => exact ⟨a, WalkTo.nil a, h⟩
  | cons y l₁ ih =>
    cases h with
    | cons hstep htail =>
      obtain ⟨m, hm₁, hm₂⟩ := ih htail
      exact ⟨m, WalkTo.cons hstep hm₁, hm₂⟩

theorem exists_dup_of_not_nodup {l : List String} (h : ¬ l.Nodup) :
    ∃ x l₁ l₂ l₃, l = l₁ ++ x :: (l₂ ++ x :: l₃) := by
  induction l with
  | nil => exact absurd List.nodup_nil h
  | cons a l ih =>
    by_cases ha : a ∈ l
    · obtain ⟨l₂, l₃, hdecomp⟩ := List.append_of_mem ha
      exact ⟨a, [], l₂, l₃, by rw [hdecomp]; rfl⟩
    · have hl : ¬ l.Nodup := fun hn => h (List.nodup_cons.mpr ⟨ha, hn⟩)
      obtain ⟨x, l₁, l₂, l₃, hdecomp⟩ := ih hl
      exact ⟨x, a :: l₁, l₂, l₃, by rw [hdecomp]; rfl⟩

theorem walkTo_cycle_of_dup {s : Store} {a c : String} {l : List String}
    (h : WalkTo s a l c) (hdup : ¬ l.Nodup) :
    ∃ x m, WalkTo s x (m ++ [x]) x := by
  obtain ⟨x, l₁, l₂, l₃, hdecomp⟩ := exists_dup_of_not_nodup hdup
  rw [hdecomp] at h
  obtain ⟨m₁, _, h₂⟩ := walkTo_split h
  cases h₂ with
  | cons hstep htail =>
    obtain ⟨m₂, hm₁, hm₂⟩ := walkTo_split htail
    cases hm₂ with
    | cons hstep₂ _ => exact ⟨x, l₂, walkTo_append hm₁ hstep₂⟩

theorem acyclic_walkTo_nodup {s : Store} (hA : Acyclic s) {a c : String}
    {l : List String} (h : WalkTo s a l c) : l.Nodup := by
  by_contra hdup
  obtain ⟨x, m, hcycle⟩ := walkTo_cycle_of_dup h hdup
  have := hA x (m ++ [x]) hcycle
  simp at this

theorem acyclic_walkTo_length {s : Store} (hA : Acyclic s) {a c : String}
    {l : List String} (h : WalkTo s a l c) : l.length ≤ (parentVals s).length :=
  ((acyclic_walkTo_nodup hA h).subperm (walkTo_subset_parentVals h)).length_le

theorem mem_levelN {s : Store} {roles : List String} {n : Nat} {x : String}
    (h : x ∈ levelN s roles n) :
    ∃ r ∈ roles, ∃ l, WalkTo s r l x ∧ l.length = n := by
  induction n generalizing x with
  | zero => exact ⟨x, h, [], WalkTo.nil x, rfl⟩
  | succ m ih =>
    rw [levelN, rolesParents] at h
    obtain ⟨y, hy, hx⟩ := (mem_unionGet x).mp h
    obtain ⟨r, hr, l, hwalk, hlen⟩ := ih hy
    exact ⟨r, hr, l ++ [x], walkTo_append hwalk hx, by simp [hlen]⟩

theorem acyclic_levelN_empty {s : Store} (hA : Acyclic s) (roles : List String) :
    levelN s roles ((parentVals s).length + 1) = [] := by
  by_contra hne
  obtain ⟨x, hx⟩ := List.exists_mem_of_ne_nil _ hne
  obtain ⟨r, _, l, hwalk, hlen⟩ := mem_levelN hx
  have := acyclic_walkTo_length hA hwalk
  omega

theorem allRoles_isSome_of_levelN {s : Store} (f : Nat) (R : List String)
    (h : levelN s R (f + 1) = []) : (allRoles (f + 1) s R).isSome := by
  induction f generalizing R with
  | zero =>
    rw [allRoles]
    have h1 : rolesParents s R = [] := h
    simp [h1]
  | succ m ih =>
    rw [allRoles]
    by_cases hp : rolesParents s R = []
    · simp [hp]
    · rw [levelN_shift] at h
      have := ih (rolesParents s R) h
      simp only [if_pos (List.length_pos.mpr hp)]
      simpa using this

theorem subset_allRoles {s : Store} {f : Nat} {R C : List String}
    (h : allRoles f s R = some C) : R ⊆ C := by
  induction f generalizing R C with
  | zero => simp [allRoles] at h
  | succ m ih =>
    rw [allRoles] at h
    split at h
    · obtain ⟨C', hC', hCC⟩ := Option.map_eq_some'.mp h
      intro x hx
      rw [← hCC]
      exact mem_listUnion.mpr (Or.inl hx)
    · intro x hx
      rw [← Option.some_inj.mp h]
      exact hx

theorem allRoles_mem_forward {s : Store} {f : Nat} {R C : List String}
    (h : allRoles f s R = some C) {x : String} (hx : x ∈ C) :
    x ∈ R ∨ ∃ r ∈ R, ∃ l, l ≠ [] ∧ WalkTo s r l x := by
  induction f generalizing R C with
  | zero => simp [allRoles] at h
  | succ m ih =>
    rw [allRoles] at h
    split at h
    · obtain ⟨C', hMap, hCC⟩ := Option.map_eq_some'.mp h
      rw [← hCC] at hx
      rcases mem_listUnion.mp hx with hR | hxC'
      · exact Or.inl hR
      · rcases ih hMap hxC' with hpar | ⟨y, hy, l, hlne, hwalk⟩
        · simp only [rolesParents] at hpar
          obtain ⟨r, hr, hedge⟩ := (mem_unionGet x).mp hpar
          exact Or.inr ⟨r, hr, [x], by simp, WalkTo.cons hedge (WalkTo.nil x)⟩
        · simp only [rolesParents] at hy
          obtain ⟨r, hr, hedge⟩ := (mem_unionGet y).mp hy
          exact Or.inr ⟨r, hr, y :: l, by simp, WalkTo.cons hedge hwalk⟩
    · rw [← Option.some_inj.mp h] at hx
      exact Or.inl hx

theorem walkTo_mem_allRoles {s : Store} {l : List String} {f : Nat}
    {R C : List String} {r x : String}
    (h : allRoles f s R = some C) (hr : r ∈ R) (hwalk : WalkTo s r l x) :
    x ∈ C := by
  induction l generalizing f R C r with
  | nil =>
    cases hwalk
    exact subset_allRoles h hr
  | cons y l ih =>
    cases hwalk with
    | cons hedge htail =>
      cases f with
      | zero => simp [allRoles] at h
      | succ m =>
        have hy : y ∈ rolesParents s R := by
          rw [rolesParents]
          exact (mem_unionGet y).mpr ⟨r, hr, hedge⟩
        rw [allRoles] at h
        rw [if_pos (List.length_pos.mpr (List.ne_nil_of_mem hy))] at h
        obtain ⟨C', hC', hCC⟩ := Option.map_eq_some'.mp h
        have := ih hC' hy htail
        rw [← hCC]
        exact mem_listUnion.mpr (Or.inr this)

/-- **C6.** On an acyclic parents relation the recursive closure computation
`_allRoles` terminates (fuel one more than the number of parent entries in
the store suffices), its result is exactly the given roles together with
every role transitively reachable along parent edges, and the recursion stops
exactly when a level's parent-union query returns empty (in which case the
result is the input role set itself). -/
theorem allRoles_terminates_and_closure (s : Store) (hA : Acyclic s)
    (R : List String) :
    ∃ C, allRoles ((parentVals s).length + 1) s R = some C ∧
      (∀ x, x ∈ C ↔ x ∈ R ∨ ∃ r ∈ R, ∃ l, l ≠ [] ∧ WalkTo s r l x) ∧
      (rolesParents s R = [] → C = R) := by
  have hterm := allRoles_isSome_of_levelN (parentVals s).length R
    (acyclic_levelN_empty hA R)
  obtain ⟨C, hC⟩ := Option.isSome_iff_exists.mp hterm
  refine ⟨C, hC, fun x => ⟨fun hx => allRoles_mem_forward hC hx, ?_⟩, ?_⟩
  · rintro (hx | ⟨r, hr, l, hlne, hwalk⟩)
    · exact subset_allRoles hC hx
    · exact walkTo_mem_allRoles hC hr hwalk
  · intro hp
    rw [allRoles, if_neg (by simp [hp])] at hC
    exact (Option.some_inj.mp hC).symm

/-- Witness store for the hierarchy claims: user `u` holds role `member`,
`member` has parent `admin`, and `admin` holds the wildcard grant on
resource `blogs`. -/
def hierStore : Store :=
  [(("users", "u"), ["member"]),
   (("parents", "member"), ["admin"]),
   (("allows_blogs", "admin"), ["*"])]

theorem hierStore_edge {a b : String} (h : b ∈ storeGet hierStore "parents" a) :
    a = "member" ∧ b = "admin" := by
  rw [hierStore, storeGet_cons] at h
  rw [if_neg (by simp)] at h
  rw [storeGet_cons] at h
  split at h
  · next he =>
    have : a = "member" := by
      have := (Prod.mk.injEq _ _ _ _).mp he
      simpa using this.2.symm
    simp_all
  · rw [storeGet_cons, if_neg (by simp), storeGet_nil] at h
    simp at h

theorem hierStore_walk_from_admin {l : List String} {c : String}
    (h : WalkTo hierStore "admin" l c) : l = [] ∧ c = "admin" := by
  cases h with
  | nil => exact ⟨rfl, rfl⟩
  | cons hedge _ =>
    obtain ⟨hx, _⟩ := hierStore_edge hedge
    simp at hx

theorem hierStore_acyclic : Acyclic hierStore := by
  intro x l h
  cases h with
  | nil => rfl
  | cons hedge htail =>
    obtain ⟨hx, hb⟩ := hierStore_edge hedge
    subst hx hb
    exact absurd (hierStore_walk_from_admin htail).2 (by decide)

/-- Witness for C6: on the acyclic store `hierStore`, the closure of
`[member]` computes and contains exactly `member` and its ancestor
`admin`. -/
theorem allRoles_terminates_and_closure_witness :
    ∃ C, allRoles ((parentVals hierStore).length + 1) hierStore ["member"] = some C ∧
      (∀ x, x ∈ C ↔ x ∈ ["member"] ∨
        ∃ r ∈ ["member"], ∃ l, l ≠ [] ∧ WalkTo hierStore r l x) ∧
      (rolesParents hierStore ["member"] = [] → C = ["member"]) :=
  allRoles_terminates_and_closure hierStore hierStore_acyclic ["member"]

theorem checkPermissions_wildcard {s : Store} {X r : String}
    (hstar : "*" ∈ storeGet s (allowsBucket X) r) :
    ∀ (l : List String) (fuel : Nat) (roles perms : List String) (d : String),
      d ∈ roles → WalkTo s d l r → l.length < fuel →
      checkPermissions fuel s roles X perms = some true := by
  intro l
  induction l with
  | nil =>
    intro fuel roles perms d hd hwalk hfuel
    cases fuel with
    | zero => omega
    | succ f =>
      cases hwalk
      rw [checkPermissions,
        if_pos (List.elem_iff.mpr ((mem_unionGet "*").mpr ⟨_, hd, hstar⟩))]
  | cons y l ih =>
    intro fuel roles perms d hd hwalk hfuel
    cases fuel with
    | zero => omega
    | succ f =>
      cases hwalk with
      | cons hedge htail =>
        rw [checkPermissions]
        by_cases h1 : "*" ∈ unionGet s (allowsBucket X) roles
        · rw [if_pos (List.elem_iff.mpr h1)]
        · rw [if_neg (by simp [h1])]
          by_cases h2 :
              (perms.filter
                (fun p => ¬ (unionGet s (allowsBucket X) roles).contains p)).length = 0
          · rw [if_pos h2]
          · rw [if_neg h2]
            have hy : y ∈ unionGet s "parents" roles :=
              (mem_unionGet y).mpr ⟨d, hd, hedge⟩
            rw [if_pos (List.length_pos.mpr (List.ne_nil_of_mem hy))]
            exact ih f _ _ y hy htail (by simp at hfuel; omega)

/-- **C2.** If the wildcard `*` is granted to role `r` on resource `X` in an
acyclic hierarchy, then `isAllowed` answers true for any requested permission
list on `X` for any user holding `r` itself or any descendant of `r` (a role
from which `r` is reachable along parent edges). -/
theorem wildcard_grant_isAllowed (s : Store) (hA : Acyclic s)
    (userId X r d : String) (l perms : List String)
    (hd : d ∈ storeGet s "users" userId)
    (hw : WalkTo s d l r)
    (hstar : "*" ∈ storeGet s (allowsBucket X) r) :
    isAllowed ((parentVals s).length + 1) s userId X perms = some true := by
  have hlen := acyclic_walkTo_length hA hw
  have hroles : storeGet s "users" userId ≠ [] := List.ne_nil_of_mem hd
  simp only [isAllowed]
  rw [if_pos (List.length_pos.mpr hroles), areAnyRolesAllowed,
    if_neg (by simpa [List.length_eq_zero] using hroles)]
  exact checkPermissions_wildcard hstar l _ _ perms d hd hw (by omega)

/-- Witness for C2: in `hierStore`, user `u` holds `member`, a descendant of
`admin`, which has the wildcard on `blogs`; an arbitrary permission list is
allowed. -/
theorem wildcard_grant_isAllowed_witness :
    isAllowed ((parentVals hierStore).length + 1) hierStore "u" "blogs"
      ["edit", "delete"] = some true :=
  wildcard_grant_isAllowed hierStore hierStore_acyclic "u" "blogs" "admin" "member"
    ["admin"] ["edit", "delete"] (by decide)
    (WalkTo.cons (by decide) (WalkTo.nil "admin")) (by decide)

/-! ## Equivalence of the naive and optimized `allowedPermissions` paths -/

theorem keyFromAllowsBucket_allowsBucket (r : String) :
    keyFromAllowsBucket (allowsBucket r) = r := by
  obtain ⟨rd⟩ := r
  rfl

theorem allRoles_mono {s : Store} {f : Nat} {R C : List String}
    (h : allRoles f s R = some C) : allRoles (f + 1) s R = some C := by
  induction f generalizing R C with
  | zero => simp [allRoles] at h
  | succ m ih =>
    rw [allRoles] at h ⊢
    split at h
    · next hcond =>
      rw [if_pos hcond]
      obtain ⟨C', hC', hCC⟩ := Option.map_eq_some'.mp h
      rw [ih hC']
      simp [hCC]
    · next hcond => rw [if_neg hcond]; exact h

theorem allRoles_mono_le {s : Store} {f f' : Nat} {R C : List String}
    (hle : f ≤ f') (h : allRoles f s R = some C) : allRoles f' s R = some C := by
  induction hle with
  | refl => exact h
  | step _ ih => exact allRoles_mono ih

theorem allRoles_agree {s : Store} {f f' : Nat} {R C C' : List String}
    (h : allRoles f s R = some C) (h' : allRoles f' s R = some C') : C = C' := by
  rcases Nat.le_total f f' with hle | hle
  · have := allRoles_mono_le hle h
    rw [this] at h'
    exact Option.some_inj.mp h'
  · have := allRoles_mono_le hle h'
    rw [this] at h
    exact (Option.some_inj.mp h).symm

theorem resourcePermissions_closure {s : Store} {X : String} {f : Nat}
    {R P : List String}
    (h : resourcePermissions f s R X = some P) :
    ∃ C, allRoles f s R = some C ∧
      ∀ x, x ∈ P ↔ x ∈ unionGet s (allowsBucket X) C := by
  induction f generalizing R P with
  | zero => simp [resourcePermissions] at h
  | succ m ih =>
    rw [resourcePermissions] at h
    rw [allRoles]
    by_cases hR : R.length = 0
    · rw [if_pos hR] at h
      have hRnil : R = [] := List.length_eq_zero.mp hR
      subst hRnil
      have hpar : rolesParents s [] = [] := rfl
      rw [if_neg (by simp [hpar])]
      refine ⟨[], rfl, ?_⟩
      rw [← Option.some_inj.mp h]
      intro x
      simp [unionGet_nil]
    · rw [if_neg hR] at h
      by_cases hp : 0 < (rolesParents s R).length
      · rw [if_pos hp] at h
        rw [if_pos hp]
        obtain ⟨P', hP', hPP⟩ := Option.map_eq_some'.mp h
        obtain ⟨C', hC', hmem⟩ := ih hP'
        refine ⟨R.union C', by rw [hC']; rfl, ?_⟩
        intro x
        rw [← hPP, mem_listUnion]
        constructor
        · rintro (hx | hx)
          · obtain ⟨k, hk, hget⟩ := (mem_unionGet x).mp hx
            exact (mem_unionGet x).mpr ⟨k, mem_listUnion.mpr (Or.inl hk), hget⟩
          · obtain ⟨k, hk, hget⟩ := (mem_unionGet x).mp ((hmem x).mp hx)
            exact (mem_unionGet x).mpr ⟨k, mem_listUnion.mpr (Or.inr hk), hget⟩
        · intro hx
          obtain ⟨k, hk, hget⟩ := (mem_unionGet x).mp hx
          rcases mem_listUnion.mp hk with hkR | hkC
          · exact Or.inl ((mem_unionGet x).mpr ⟨k, hkR, hget⟩)
          · exact Or.inr ((hmem x).mpr ((mem_unionGet x).mpr ⟨k, hkC, hget⟩))
      · rw [if_neg hp] at h
        rw [if_neg hp]
        exact ⟨R, rfl, fun x => by rw [← Option.some_inj.mp h]⟩

theorem mapM_option_forall₂ {α β : Type} {g : α → Option β} :
    ∀ {l : List α} {m : List β}, l.mapM g = some m →
      List.Forall₂ (fun a b => g a = some b) l m := by
  intro l
  induction l with
  | nil =>
    intro m h
    simp only [List.mapM_nil, pure, Option.some_inj] at h
    rw [← h]
    exact List.Forall₂.nil
  | cons a l ih =>
    intro m h
    rw [List.mapM_cons] at h
    cases hga : g a with
    | none => rw [hga] at h; simp at h
    | some b =>
      rw [hga] at h
      cases hgl : l.mapM g with
      | none => rw [hgl] at h; simp at h
      | some bs =>
        rw [hgl] at h
        have hm : b :: bs = m := by simpa using h
        rw [← hm]
        exact List.Forall₂.cons hga (ih hgl)

/-- Pointwise agreement of two resource-to-permission maps: same resource
keys, in the same order, and permission lists equal as sets. -/
abbrev EqPermMaps (m₁ m₂ : List (String × List String)) : Prop :=
  List.Forall₂ (fun p q => p.1 = q.1 ∧ ∀ x, x ∈ p.2 ↔ x ∈ q.2) m₁ m₂

/-- **C4.** Whenever both the naive `allowedPermissions` path (direct roles,
then the recursive per-resource permission union) and the optimized path
(full role closure, then one batched `unions` call) return a result for the
same store, user and resource list, the two resource-to-permission-set maps
are identical (same resources in the same order, equal permission sets). -/
theorem allowedPermissions_eq_optimized (f₁ f₂ : Nat) (s : Store)
    (userId : String) (resources : List String)
    (m₁ m₂ : List (String × List String))
    (h₁ : allowedPermissions f₁ s userId resources = some m₁)
    (h₂ : optimizedAllowedPermissions f₂ s userId resources = some m₂) :
    EqPermMaps m₁ m₂ := by
  by_cases hu : userId = ""
  · rw [allowedPermissions, if_pos hu] at h₁
    rw [optimizedAllowedPermissions, if_pos hu] at h₂
    rw [← Option.some_inj.mp h₁, ← Option.some_inj.mp h₂]
    exact List.Forall₂.nil
  · rw [allowedPermissions, if_neg hu] at h₁
    rw [optimizedAllowedPermissions, if_neg hu] at h₂
    obtain ⟨RC, hRC, hm₂⟩ := Option.map_eq_some'.mp h₂
    rw [allUserRoles] at hRC
    have hF := mapM_option_forall₂ h₁
    by_cases hroles : (userRoles s userId).length > 0
    · rw [if_pos hroles] at hRC
      have hRCne : RC.length ≠ 0 := by
        intro h0
        have hsub := subset_allRoles hRC
        have hne : userRoles s userId ≠ [] := by
          intro hnil
          rw [hnil] at hroles
          simp at hroles
        obtain ⟨y, hy⟩ := List.exists_mem_of_ne_nil _ hne
        have hyRC := hsub hy
        rw [List.length_eq_zero.mp h0] at hyRC
        simp at hyRC
      have hm₂' : m₂ = resources.map
          (fun X => (keyFromAllowsBucket (allowsBucket X), unionGet s (allowsBucket X) RC)) := by
        rw [← hm₂]
        simp only [unionsGet, if_neg hRCne, List.map_map]
        rfl
      rw [hm₂']
      clear h₁ h₂ hm₂ hm₂'
      induction hF with
      | nil => exact List.Forall₂.nil
      | @cons X p Xs ps hab htail ihF =>
        refine List.Forall₂.cons ?_ ihF
        obtain ⟨P, hP, hpP⟩ := Option.map_eq_some'.mp hab
        obtain ⟨C, hC, hmem⟩ := resourcePermissions_closure hP
        have hCRC : C = RC := allRoles_agree hC hRC
        subst hCRC
        rw [← hpP]
        exact ⟨(keyFromAllowsBucket_allowsBucket X).symm, hmem⟩
    · rw [if_neg hroles] at hRC
      have hRCnil : RC = [] := (Option.some_inj.mp hRC).symm
      subst hRCnil
      have hm₂' : m₂ = resources.map
          (fun X => (keyFromAllowsBucket (allowsBucket X), ([] : List String))) := by
        rw [← hm₂]
        simp only [List.length_nil, if_pos, List.map_map]
        rfl
      rw [hm₂']
      clear h₁ h₂ hm₂ hm₂' hRC
      have hrnil : userRoles s userId = [] := by
        by_contra hne
        exact hroles (List.length_pos.mpr hne)
      rw [hrnil] at hF
      induction hF with
      | nil => exact List.Forall₂.nil
      | @cons X p Xs ps hab htail ihF =>
        refine List.Forall₂.cons ?_ ihF
        obtain ⟨P, hP, hpP⟩ := Option.map_eq_some'.mp hab
        have hPnil : P = [] := by
          cases f₁ with
          | zero => simp [resourcePermissions] at hP
          | succ m =>
            rw [resourcePermissions, if_pos (by simp)] at hP
            exact (Option.some_inj.mp hP).symm
        subst hPnil
        rw [← hpP]
        exact ⟨(keyFromAllowsBucket_allowsBucket X).symm, fun x => Iff.rfl⟩

/-- Witness for C4: on `hierStore`, both paths produce the same map for user
`u` and resource list `[blogs]`. -/
theorem allowedPermissions_eq_optimized_witness :
    EqPermMaps [("blogs", ["*"])] [("blogs", ["*"])] :=
  allowedPermissions_eq_optimized 2 2 hierStore "u" ["blogs"]
    [("blogs", ["*"])] [("blogs", ["*"])] (by rfl) (by rfl)

/-! ## The users/roles mirror invariant (claim C5)

`addUserRoles` and `removeUserRoles` write both buckets as twins.
`removeRole`, however, deletes the role's member set (`del(roles, role)`)
without touching any user's role set in the `users` bucket, so a committed
role deletion can leave the two buckets out of mirror. -/

/-- The two assignment buckets are mirror images: user `u` lists role `r`
iff role `r` lists member `u`. -/
def Mirror (s : Store) : Prop :=
  ∀ u r, r ∈ storeGet s "users" u ↔ u ∈ storeGet s "roles" r

theorem storeGet_foldl_storeAdd_roles_other {roles : List String} {s : Store}
    {u0 b k : String} (hb : b ≠ "roles") :
    storeGet (roles.foldl (fun s role => storeAdd s "roles" role [u0]) s) b k
      = storeGet s b k := by
  induction roles generalizing s with
  | nil => rfl
  | cons a roles ih =>
    rw [List.foldl_cons, ih, storeGet_storeAdd_ne]
    intro hpair
    exact hb ((Prod.mk.injEq _ _ _ _).mp hpair).1

theorem mem_storeGet_foldl_storeAdd_roles {roles : List String} {s : Store}
    {u0 r x : String} :
    x ∈ storeGet (roles.foldl (fun s role => storeAdd s "roles" role [u0]) s) "roles" r
      ↔ x ∈ storeGet s "roles" r ∨ (x = u0 ∧ r ∈ roles) := by
  induction roles generalizing s with
  | nil => simp
  | cons a roles ih =>
    rw [List.foldl_cons, ih]
    by_cases hr : r = a
    · subst hr
      rw [mem_storeGet_storeAdd_self]
      simp [and_or_left]
      tauto
    · rw [storeGet_storeAdd_ne s _ (by simp [hr])]
      simp [hr]

theorem storeGet_foldl_storeRemove_roles_other {roles : List String} {s : Store}
    {u0 b k : String} (hb : b ≠ "roles") :
    storeGet (roles.foldl (fun s role => storeRemove s "roles" role [u0]) s) b k
      = storeGet s b k := by
  induction roles generalizing s with
  | nil => rfl
  | cons a roles ih =>
    rw [List.foldl_cons, ih, storeGet_storeRemove_ne]
    intro hpair
    exact hb ((Prod.mk.injEq _ _ _ _).mp hpair).1

theorem mem_storeGet_foldl_storeRemove_roles {roles : List String} {s : Store}
    {u0 r x : String} :
    x ∈ storeGet (roles.foldl (fun s role => storeRemove s "roles" role [u0]) s) "roles" r
      ↔ x ∈ storeGet s "roles" r ∧ ¬ (x = u0 ∧ r ∈ roles) := by
  induction roles generalizing s with
  | nil => simp
  | cons a roles ih =>
    rw [List.foldl_cons, ih]
    by_cases hr : r = a
    · subst hr
      rw [mem_storeGet_storeRemove_self]
      simp
      tauto
    · rw [storeGet_storeRemove_ne s _ (by simp [hr])]
      simp [hr]

/-- **C5 (amended).** The users→roles and roles→members buckets stay mirror
images across `addUserRoles` and `removeUserRoles` (the twin-write
mutations); `removeRole` is excluded because it deletes the role's member
set while leaving the role inside its members' user-bucket role sets (see
the counterexample). -/
theorem mirror_preserved_userRole_mutations (s : Store) (hM : Mirror s)
    (userId : String) (roles : List String) :
    Mirror (addUserRoles s userId roles) ∧ Mirror (removeUserRoles s userId roles) := by
  constructor
  · intro u r
    rw [addUserRoles]
    rw [storeGet_foldl_storeAdd_roles_other (by decide), mem_storeGet_foldl_storeAdd_roles]
    have hmeta : storeGet (storeAdd s "meta" "users" [userId]) "users" u
        = storeGet s "users" u := storeGet_storeAdd_ne s _ (by simp)
    have hmeta2 : storeGet (storeAdd (storeAdd s "meta" "users" [userId]) "users" userId roles)
        "roles" r = storeGet s "roles" r := by
      rw [storeGet_storeAdd_ne _ _ (by simp), storeGet_storeAdd_ne s _ (by simp)]
    rw [hmeta2]
    by_cases hu : u = userId
    · subst hu
      rw [mem_storeGet_storeAdd_self, hmeta, hM u r]
      tauto
    · rw [storeGet_storeAdd_ne _ _ (by simp [hu]), hmeta, hM u r]
      simp [hu]
  · intro u r
    rw [removeUserRoles]
    rw [storeGet_foldl_storeRemove_roles_other (by decide), mem_storeGet_foldl_storeRemove_roles]
    have hs4 : storeGet (storeRemove s "users" userId roles) "roles" r
        = storeGet s "roles" r := storeGet_storeRemove_ne s _ (by simp)
    rw [hs4]
    by_cases hu : u = userId
    · subst hu
      rw [mem_storeGet_storeRemove_self, hM u r]
      tauto
    · rw [storeGet_storeRemove_ne s _ (by simp [hu]), hM u r]
      simp [hu]

/-- Counterexample for C5 as stated: from the mirror state reached by
`addUserRoles [] "u" ["r"]`, the single committed mutation `removeRole "r"`
leaves `r` in user `u`'s role set while `u` is gone from role `r`'s member
set — the buckets are no longer mirror images. -/
theorem mirror_violated_by_removeRole :
    Mirror (addUserRoles [] "u" ["r"]) ∧
      "r" ∈ storeGet (removeRole (addUserRoles [] "u" ["r"]) "r") "users" "u" ∧
      ¬ "u" ∈ storeGet (removeRole (addUserRoles [] "u" ["r"]) "r") "roles" "r" ∧
      ¬ Mirror (removeRole (addUserRoles [] "u" ["r"]) "r") := by
  refine ⟨?_, by decide, by decide, ?_⟩
  · rw [show addUserRoles [] "u" ["r"]
        = [(("meta", "users"), ["u"]), (("users", "u"), ["r"]),
           (("roles", "r"), ["u"])] from rfl]
    intro u r
    by_cases hu : u = "u" <;> by_cases hr : r = "r" <;>
      simp [storeGet_cons, storeGet_nil, hu, hr, Prod.ext_iff, eq_comm]
  · intro hM
    exact absurd ((hM "u" "r").mp (by decide)) (by decide)

/-- Witness for the amended C5: starting from the (mirror) empty store, both
twin-write mutations preserve the mirror invariant. -/
theorem mirror_preserved_userRole_mutations_witness :
    Mirror (addUserRoles [] "joed" ["guest"]) ∧
      Mirror (removeUserRoles [] "joed" ["guest"]) :=
  mirror_preserved_userRole_mutations [] (fun u r => by simp [storeGet_nil]) "joed" ["guest"]

/-! ## Grant / revoke and parent round-trips (claims C7, C8) -/

theorem allowsBucket_head (r : String) : (allowsBucket r).data.head? = some 'a' := by
  obtain ⟨rd⟩ := r
  rfl

theorem allowsBucket_ne_const (c : String) (hc : ¬ c.data.head? = some 'a')
    (r : String) : allowsBucket r ≠ c :=
  fun h => hc (h ▸ allowsBucket_head r)

/-- **C8.** From a child with no parents, `addRoleParents child [p1, p2]`
followed by `removeRoleParents child [p1]` leaves exactly `[p2]` as the
child's parent set; and `removeRoleParents` with no parents argument deletes
the child's entire parent-set key. -/
theorem roleParents_roundtrip (s : Store) (child p1 p2 : String)
    (hne : p1 ≠ p2) (hempty : storeGet s "parents" child = []) :
    storeGet (removeRoleParents (addRoleParents s child [p1, p2]) child [p1])
        "parents" child = [p2] ∧
    ∀ (s' : Store) (role : String),
      storeGet (removeRoleParentsAll s' role) "parents" role = [] := by
  constructor
  · rw [removeRoleParents, storeGet_storeRemove_self, addRoleParents,
      storeGet_storeAdd_self, storeGet_storeAdd_ne s _ (by simp), hempty]
    simp [List.union, List.filter, Ne.symm hne]
  · intro s' role
    exact storeGet_storeDel_self s' "parents" role

/-- Witness for C8: concrete round-trip on the empty store. -/
theorem roleParents_roundtrip_witness :
    storeGet (removeRoleParents (addRoleParents [] "member" ["guest", "staff"])
        "member" ["guest"]) "parents" "member" = ["staff"] ∧
    ∀ (s' : Store) (role : String),
      storeGet (removeRoleParentsAll s' role) "parents" role = [] :=
  roleParents_roundtrip [] "member" "guest" "staff" (by decide) (by rfl)

/-- **C7.** Granting permission `P` to `(role, resource)` by `allow` and then
immediately revoking exactly `P` by `removeAllow`, from a state where the
pair held no permission other than `P`, leaves zero permissions stored for
the pair and drops the resource from the role's `resources` bucket
listing. -/
theorem allow_then_removeAllow_clears (s : Store) (role resource P : String)
    (hprior : ∀ q ∈ storeGet s (allowsBucket resource) role, q = P) :
    storeGet (removeAllow (allow s [role] [resource] [P]) role [resource] (some [P]))
        (allowsBucket resource) role = [] ∧
    ¬ resource ∈ storeGet (removeAllow (allow s [role] [resource] [P]) role [resource]
        (some [P])) "resources" role := by
  have hgrant : storeGet (allow s [role] [resource] [P]) (allowsBucket resource) role
      = (storeGet s (allowsBucket resource) role).union [P] := by
    simp only [allow, List.foldl_cons, List.foldl_nil]
    rw [storeGet_storeAdd_ne _ _ (by simp [allowsBucket_ne_const "resources" (by decide) resource]),
      storeGet_storeAdd_self,
      storeGet_storeAdd_ne s _ (by simp [allowsBucket_ne_const "meta" (by decide) resource])]
  have hkey : storeGet (storeRemove (allow s [role] [resource] [P])
      (allowsBucket resource) role [P]) (allowsBucket resource) role = [] := by
    rw [storeGet_storeRemove_self, hgrant, List.filter_eq_nil_iff]
    intro x hx
    rcases mem_listUnion.mp hx with hold | hP
    · simp [hprior x hold]
    · simp at hP
      simp [hP]
  constructor
  · rw [removeAllow, removePermissions]
    simp only [List.foldl_cons, List.foldl_nil, List.filter, hkey]
    simp only [decide_True, List.foldl_cons, List.foldl_nil]
    rw [storeGet_storeRemove_ne _ _
      (by simp [allowsBucket_ne_const "resources" (by decide) resource]), hkey]
  · rw [removeAllow, removePermissions]
    simp only [List.foldl_cons, List.foldl_nil, List.filter, hkey]
    simp only [decide_True, List.foldl_cons, List.foldl_nil]
    rw [mem_storeGet_storeRemove_self]
    simp

/-- Witness for C7: concrete grant/revoke round-trip on the empty store. -/
theorem allow_then_removeAllow_clears_witness :
    storeGet (removeAllow (allow [] ["guest"] ["blogs"] ["view"]) "guest" ["blogs"]
        (some ["view"])) (allowsBucket "blogs") "guest" = [] ∧
    ¬ "blogs" ∈ storeGet (removeAllow (allow [] ["guest"] ["blogs"] ["view"]) "guest"
        ["blogs"] (some ["view"])) "resources" "guest" :=
  allow_then_removeAllow_clears [] "guest" "blogs" "view" (by simp [storeGet_nil])

/-! ## The MongoDB backend's reserved `"key"` check (claim C9)

From `src/unnamed/part_002` (MongoDBBackend): `begin` returns an empty list
of deferred operations, every mutation buffers a closure into it, and only
`end` executes them. `add` throws synchronously — before anything is
executed — when the raw key is the literal `"key"`; no other key value is
rejected. Keys and values are stored URI-encoded (`encodeURIComponent`, then
`.` replaced by `%2E`). -/

/-- Characters `encodeURIComponent` leaves unescaped
(`A-Z a-z 0-9 - _ . ! ~ * ' ( )`). -/
def isUnreservedChar (c : Char) : Bool :=
  c.isAlphanum || c = '-' || c = '_' || c = '.' || c = '!' || c = '~' || c = '*' ||
    c = Char.ofNat 39 || c = '(' || c = ')'

def hexDigit (n : Nat) : Char :=
  if n < 10 then Char.ofNat ('0'.toNat + n) else Char.ofNat ('A'.toNat + (n - 10))

/-- UTF-8 bytes of a character (as percent-encoding operates bytewise). -/
def utf8Bytes (c : Char) : List Nat :=
  let n := c.toNat
  if n < 128 then [n]
  else if n < 2048 then [192 + n / 64, 128 + n % 64]
  else if n < 65536 then [224 + n / 4096, 128 + (n / 64) % 64, 128 + n % 64]
  else [240 + n / 262144, 128 + (n / 4096) % 64, 128 + (n / 64) % 64, 128 + n % 64]

def percentByte (b : Nat) : List Char := ['%', hexDigit (b / 16), hexDigit (b % 16)]

def encodeChar (c : Char) : List Char :=
  if isUnreservedChar c then [c]
  else (utf8Bytes c).foldr (fun b acc => percentByte b ++ acc) []

def replaceDot (c : Char) : List Char := if c = '.' then ['%', '2', 'E'] else [c]

/-- `encodeText` (mongodb backend): `encodeURIComponent(text)` followed by
the global replacement of `.` with `%2E`. -/
def encodeText (s : String) : String :=
  ⟨((s.data.map encodeChar).flatten.map replaceDot).flatten⟩

/-- A buffered MongoDB transaction: the closures pushed by the mutation
calls, executed only by `end`. -/
abbrev MongoTxn := List (Store → Store)

/-- `MongoDBBackend.prototype.add(transaction, bucket, key, values)`: throws
when the raw key is the literal `"key"`, before queueing anything; otherwise
queues an upsert that `$set`s the (encoded) values as fields of the document
at the (encoded) key — a set-union write. The `createIndex` operation queued
alongside does not change the stored data and is omitted. -/
def mongoAdd (txn : MongoTxn) (bucket key : String) (values : List String) :
    Except String MongoTxn :=
  if key = "key" then Except.error "Key name 'key' is not allowed."
  else
    Except.ok (txn ++ [fun st => storeAdd st bucket (encodeText key) (values.map encodeText)])

/-- `MongoDBBackend.prototype.end(transaction)`: executes the buffered
operations; this is the only point where the store changes. -/
def mongoEnd (st : Store) (txn : MongoTxn) : Store :=
  txn.foldl (fun st f => f st) st

/-- `Acl.prototype.addUserRoles` running over the MongoDB backend: `begin`
(empty buffer), `add(meta, "users", userId)`, `add(users, userId, roles)`,
`add(roles, role, userId)` per role, then `end`. An error thrown by any
`add` propagates before `end` runs, so the store is left untouched (the
error case returns no new store). -/
def addUserRolesMongo (st : Store) (userId : String) (roles : List String) :
    Except String Store := do
  let txn : MongoTxn := []
  let txn ← mongoAdd txn "meta" "users" [userId]
  let txn ← mongoAdd txn "users" userId roles
  let txn ← roles.foldlM (fun txn role => mongoAdd txn "roles" role [userId]) txn
  return mongoEnd st txn

theorem exceptOk_bind {α β : Type} (a : α) (f : α → Except String β) :
    (Except.ok a >>= f : Except String β) = f a := rfl

theorem exceptPure_bind {α β : Type} (a : α) (f : α → Except String β) :
    ((pure a : Except String α) >>= f) = f a := rfl

/-- `Acl.prototype.addRoleParents` running over the MongoDB backend: `begin`,
`add(meta, "roles", role)`, `add(parents, role, parents)`, then `end`. The
only storage keys written are the constant `"roles"` (meta bucket) and the
child role (parents bucket); the parent names are stored as values. -/
def addRoleParentsMongo (st : Store) (role : String) (parents : List String) :
    Except String Store := do
  let txn : MongoTxn := []
  let txn ← mongoAdd txn "meta" "roles" [role]
  let txn ← mongoAdd txn "parents" role parents
  return mongoEnd st txn

/-- `Acl.prototype.allow` (flat form) running over the MongoDB backend:
`begin`, `add(meta, "roles", roles)`, `add(allows_<resource>, role,
permissions)` for each resource × role, `add(resources, role, resources)`
for each role, then `end`. The storage keys written are the constant
`"roles"` and the role names (as the grant key of each `allows_<resource>`
bucket and in the resources bucket); resource and permission names are
stored as values or bucket names. -/
def allowMongo (st : Store) (roles resources permissions : List String) :
    Except String Store := do
  let txn : MongoTxn := []
  let txn ← mongoAdd txn "meta" "roles" roles
  let txn ← resources.foldlM (fun txn resource =>
      roles.foldlM (fun txn role => mongoAdd txn (allowsBucket resource) role permissions) txn) txn
  let txn ← roles.foldlM (fun txn role => mongoAdd txn "resources" role resources) txn
  return mongoEnd st txn

theorem foldlM_mongoAdd_key_mem {bucket : String} {vals : List String} :
    ∀ {keys : List String} (txn : MongoTxn), "key" ∈ keys →
      keys.foldlM (fun txn k => mongoAdd txn bucket k vals) txn
        = Except.error "Key name 'key' is not allowed." := by
  intro keys
  induction keys with
  | nil => intro txn h; simp at h
  | cons a keys ih =>
    intro txn h
    rw [List.foldlM_cons]
    by_cases ha : a = "key"
    · subst ha
      rw [mongoAdd, if_pos rfl]
      rfl
    · rw [mongoAdd, if_neg ha]
      have hkey : "key" ∈ keys := by
        rcases List.mem_cons.mp h with h' | h'
        · exact absurd h'.symm ha
        · exact h'
      simp only [exceptOk_bind]
      exact ih _ hkey

theorem foldlM_mongoAdd_ok {bucket : String} {vals : List String} :
    ∀ {keys : List String} (txn : MongoTxn), (∀ k ∈ keys, k ≠ "key") →
      ∃ txn', keys.foldlM (fun txn k => mongoAdd txn bucket k vals) txn
        = Except.ok txn' := by
  intro keys
  induction keys with
  | nil => intro txn _; exact ⟨txn, rfl⟩
  | cons a keys ih =>
    intro txn h
    rw [List.foldlM_cons, mongoAdd, if_neg (h a (List.mem_cons_self a keys))]
    simp only [exceptOk_bind]
    exact ih _ (fun r hr => h r (List.mem_cons_of_mem a hr))

theorem foldlM_allows_ok {roles perms : List String}
    (hroles : ∀ r ∈ roles, r ≠ "key") :
    ∀ {resources : List String} (txn : MongoTxn),
      ∃ txn', resources.foldlM (fun txn resource =>
          roles.foldlM (fun txn role => mongoAdd txn (allowsBucket resource) role perms) txn) txn
        = Except.ok txn' := by
  intro resources
  induction resources with
  | nil => intro txn; exact ⟨txn, rfl⟩
  | cons X rest ih =>
    intro txn
    simp only [List.foldlM_cons]
    obtain ⟨txn₁, h₁⟩ := foldlM_mongoAdd_ok txn hroles
    rw [h₁]
    simp only [exceptOk_bind]
    exact ih txn₁

/-- **C9.** Over the MongoDB backend, every mutation call that would write
the literal string `"key"` as a storage key is rejected with an error; the
error is raised synchronously by the backend's `add` before `end` executes
the buffered operations, so no state change occurs (the error outcome
carries no new store, the caller's store stands); all other non-empty
identifiers are accepted. The storage keys the engine's mutations write
are: the user id and the role names in `addUserRoles` (users and roles
buckets), the child role in `addRoleParents` (parents bucket), and the role
names in `allow` (the grant key of each `allows_<resource>` bucket and the
resources bucket). The remaining mutations buffer only `remove`/`del`
operations, which store no values under any key. -/
theorem mongo_mutations_key_reserved (st : Store) (userId role : String)
    (roles resources permissions parents : List String) :
    ((userId = "key" ∨ "key" ∈ roles) →
      addUserRolesMongo st userId roles
        = Except.error "Key name 'key' is not allowed.") ∧
    (userId ≠ "" → userId ≠ "key" → (∀ r ∈ roles, r ≠ "" ∧ r ≠ "key") →
      ∃ st', addUserRolesMongo st userId roles = Except.ok st') ∧
    (role = "key" →
      addRoleParentsMongo st role parents
        = Except.error "Key name 'key' is not allowed.") ∧
    (role ≠ "" → role ≠ "key" →
      ∃ st', addRoleParentsMongo st role parents = Except.ok st') ∧
    ("key" ∈ roles →
      allowMongo st roles resources permissions
        = Except.error "Key name 'key' is not allowed.") ∧
    ((∀ r ∈ roles, r ≠ "" ∧ r ≠ "key") →
      ∃ st', allowMongo st roles resources permissions = Except.ok st') := by
  refine ⟨?_, ?_, ?_, ?_, ?_, ?_⟩
  · intro h
    rw [addUserRolesMongo]
    rw [mongoAdd, if_neg (by decide)]
    simp only [exceptOk_bind]
    rcases h with hu | hr
    · rw [mongoAdd, if_pos hu]
      rfl
    · by_cases hu : userId = "key"
      · rw [mongoAdd, if_pos hu]
        rfl
      · rw [mongoAdd, if_neg hu]
        simp only [exceptOk_bind]
        rw [foldlM_mongoAdd_key_mem _ hr]
        rfl
  · intro _ hukey hroles
    rw [addUserRolesMongo]
    rw [mongoAdd, if_neg (by decide)]
    simp only [exceptOk_bind]
    rw [mongoAdd, if_neg hukey]
    simp only [exceptOk_bind]
    obtain ⟨txn', htxn'⟩ := foldlM_mongoAdd_ok _ (fun r hr => (hroles r hr).2)
    rw [htxn']
    exact ⟨_, rfl⟩
  · intro hrole
    rw [addRoleParentsMongo]
    rw [mongoAdd, if_neg (by decide)]
    simp only [exceptOk_bind]
    rw [mongoAdd, if_pos hrole]
    rfl
  · intro _ hrkey
    rw [addRoleParentsMongo]
    rw [mongoAdd, if_neg (by decide)]
    simp only [exceptOk_bind]
    rw [mongoAdd, if_neg hrkey]
    exact ⟨_, rfl⟩
  · intro hkr
    rw [allowMongo]
    rw [mongoAdd, if_neg (by decide)]
    simp only [exceptOk_bind]
    cases resources with
    | nil =>
      simp only [List.foldlM_nil, exceptPure_bind]
      rw [foldlM_mongoAdd_key_mem _ hkr]
      rfl
    | cons X rest =>
      simp only [List.foldlM_cons]
      rw [foldlM_mongoAdd_key_mem _ hkr]
      rfl
  · intro hroles
    rw [allowMongo]
    rw [mongoAdd, if_neg (by decide)]
    simp only [exceptOk_bind]
    obtain ⟨txn₂, h₂⟩ := foldlM_allows_ok (fun r hr => (hroles r hr).2) _
    rw [h₂]
    simp only [exceptOk_bind]
    obtain ⟨txn₃, h₃⟩ := foldlM_mongoAdd_ok _ (fun r hr => (hroles r hr).2)
    rw [h₃]
    exact ⟨_, rfl⟩

/-- Witness for C9: `addUserRoles("key", [guest])`, `addRoleParents("key",
[admin])` and `allow(["key"], [blogs], [view])` all error, while the same
calls with ordinary identifiers are accepted. -/
theorem mongo_mutations_key_reserved_witness :
    addUserRolesMongo [] "key" ["guest"]
      = Except.error "Key name 'key' is not allowed." ∧
    (∃ st', addUserRolesMongo [] "joed" ["guest"] = Except.ok st') ∧
    addRoleParentsMongo [] "key" ["admin"]
      = Except.error "Key name 'key' is not allowed." ∧
    (∃ st', addRoleParentsMongo [] "member" ["admin"] = Except.ok st') ∧
    allowMongo [] ["key"] ["blogs"] ["view"]
      = Except.error "Key name 'key' is not allowed." ∧
    (∃ st', allowMongo [] ["guest"] ["blogs"] ["view"] = Except.ok st') :=
  ⟨(mongo_mutations_key_reserved [] "key" "x" ["guest"] [] [] []).1 (Or.inl rfl),
   (mongo_mutations_key_reserved [] "joed" "x" ["guest"] [] [] []).2.1
     (by decide) (by decide) (by decide),
   (mongo_mutations_key_reserved [] "u" "key" [] [] [] ["admin"]).2.2.1 rfl,
   (mongo_mutations_key_reserved [] "u" "member" [] [] [] ["admin"]).2.2.2.1
     (by decide) (by decide),
   (mongo_mutations_key_reserved [] "u" "x" ["key"] ["blogs"] ["view"] []).2.2.2.2.1
     (by decide),
   (mongo_mutations_key_reserved [] "u" "x" ["guest"] ["blogs"] ["view"] []).2.2.2.2.2
     (by decide)⟩

end NodeAcl
